import Mathlib

/-!
Verification of the sxd-document in-memory XML document model against its
specification.

The public name types (PrefixedName, QName) and the Package entry point are
embedded directly from src/src/lib.rs.  The storage, connection, string-pool
and namespace-resolution modules are declared in lib.rs but their code is not
part of the sources, so they are modelled from the specification; every such
definition carries a doc comment starting with "Modelled from the spec:".

Node handles are natural numbers issued by the arena in allocation order;
handle 0 is the Root created by Package::new.  Interned string references are
indices into the pool, so reference identity is index equality.
-/

namespace Sxd

/-- Modelled from the spec: the string_pool module (§4.1) is not under src.
The pool is the list of distinct backing allocations in creation order; a
reference is the index of an allocation, so two references are
identity-equal exactly when the indices are equal.  intern returns the
reference for equal content when present and otherwise appends a fresh
allocation. -/
def intern : List String → String → Nat × List String
  | [], s => (0, [s])
  | t :: rest, s =>
    if t = s then (0, t :: rest)
    else ((intern rest s).1 + 1, t :: (intern rest s).2)

/-- Interning a whole list of strings in order, keeping only the pool. -/
def internAll (pool : List String) (ts : List String) : List String :=
  match ts with
  | [] => pool
  | t :: ts => internAll (intern pool t).2 ts

/-- Read the content behind an interned reference. -/
def poolGet (pool : List String) (r : Nat) : String :=
  pool.getD r ""

/-- Embeds PrefixedName from src/src/lib.rs lines 74-98.  The source field
named prefix is called pfx here because its source name is a Lean keyword. -/
structure PrefixedName where
  pfx : Option String
  local_part : String
  deriving DecidableEq, Repr

/-- Embeds PrefixedName::with_prefix (lib.rs line 89). -/
def PrefixedName.withPfx (p : Option String) (l : String) : PrefixedName :=
  { pfx := p, local_part := l }

/-- Embeds PrefixedName::new (lib.rs line 84). -/
def PrefixedName.new (l : String) : PrefixedName :=
  PrefixedName.withPfx none l

/-- Embeds QName from src/src/lib.rs lines 100-137. -/
structure QName where
  namespace_uri : Option String
  local_part : String
  deriving DecidableEq, Repr

/-- Embeds QName::with_namespace_uri (lib.rs line 116). -/
def QName.with_namespace_uri (u : Option String) (l : String) : QName :=
  { namespace_uri := u, local_part := l }

/-- Embeds QName::new (lib.rs line 111). -/
def QName.new (l : String) : QName :=
  QName.with_namespace_uri none l

/-- Embeds the From (&str, &str) impl for QName (lib.rs lines 127-131). -/
def QName.fromPair (v : String × String) : QName :=
  { namespace_uri := some v.1, local_part := v.2 }

/-- Embeds the From &str impl for QName (lib.rs lines 133-137). -/
def QName.fromStr (v : String) : QName :=
  { namespace_uri := none, local_part := v }

/-- The closed node-kind variant set of the spec (§3). -/
inductive NodeKind where
  | root
  | element
  | attributeNode
  | text
  | comment
  | processingInstruction
  deriving DecidableEq, Repr

/-- Modelled from the spec: the raw module (Storage arena §4.2 and the
Connections relationship table §4.3) is not under src.  A document is the
combined state of both: size is the number of handles the arena has issued
(handle 0 is Root), kind/localName/valueRef/attrName are the per-record
payload, parent/childList/attrList are the Connections table, nsDecls are
the per-element namespace-declaration attributes (§4.5), and pool is the
string-interning pool.  In the source language handles are opaque values
that can only come from the owning arena, so unallocated numbers never
reach an operation; the model makes that explicit by rejecting them. -/
structure Doc where
  size : Nat
  kind : Nat → NodeKind
  localName : Nat → String
  valueRef : Nat → Nat
  parent : Nat → Option Nat
  childList : Nat → List Nat
  attrList : Nat → List Nat
  attrName : Nat → String
  nsDecls : Nat → List (String × String)
  pool : List String

/-- Modelled from the spec: Package::new (lib.rs lines 149-156) creates the
storage with its single Root (handle 0) and an empty Connections table. -/
def emptyDoc : Doc where
  size := 1
  kind := fun n => if n = 0 then NodeKind.root else NodeKind.element
  localName := fun _ => ""
  valueRef := fun _ => 0
  parent := fun _ => none
  childList := fun _ => []
  attrList := fun _ => []
  attrName := fun _ => ""
  nsDecls := fun _ => []
  pool := []

/-- Embeds Package from src/src/lib.rs lines 143-168: an owner of the
document state, identified by the allocation address it was constructed
at (its PartialEq compares the two addresses, lines 170-174). -/
structure Package where
  addr : Nat
  content : Doc

/-- Embeds Package::new at a given allocation address. -/
def Package.new (a : Nat) : Package :=
  { addr := a, content := emptyDoc }

/-- Embeds the PartialEq impl for Package (lib.rs lines 170-174): equality
is pointer identity, i.e. address comparison. -/
def packageEq (a b : Package) : Bool :=
  a.addr == b.addr

/-- Walk parent links upward from a node, listing the visited nodes
(the node itself first), with explicit fuel. -/
def walkUp (par : Nat → Option Nat) : Nat → Nat → List Nat
  | 0, _ => []
  | f + 1, n =>
    n :: (match par n with
          | none => []
          | some q => walkUp par f q)

/-- Modelled from the spec: the ancestor chain of a node (the node itself,
its parent, and so on).  Fuel d.size suffices because parent chains are
cycle-free and visit distinct allocated handles (proved below). -/
def ancestors (d : Doc) (n : Nat) : List Nat :=
  walkUp d.parent d.size n

/-- Modelled from the spec: Storage allocation (§4.2) of one record of the
given kind; the fresh handle is the current size. -/
def allocNode (d : Doc) (k : NodeKind) : Nat × Doc :=
  (d.size,
   { d with size := d.size + 1, kind := Function.update d.kind d.size k })

/-- Modelled from the spec: create_element (§4.2). -/
def create_element (d : Doc) (name : String) : Nat × Doc :=
  let r := allocNode d NodeKind.element
  (r.1, { r.2 with localName := Function.update r.2.localName r.1 name })

/-- Modelled from the spec: create_text (§4.2); the value is interned. -/
def create_text (d : Doc) (v : String) : Nat × Doc :=
  let r := allocNode d NodeKind.text
  let ir := intern r.2.pool v
  (r.1, { r.2 with pool := ir.2, valueRef := Function.update r.2.valueRef r.1 ir.1 })

/-- Modelled from the spec: create_comment (§4.2); the value is interned. -/
def create_comment (d : Doc) (v : String) : Nat × Doc :=
  let r := allocNode d NodeKind.comment
  let ir := intern r.2.pool v
  (r.1, { r.2 with pool := ir.2, valueRef := Function.update r.2.valueRef r.1 ir.1 })

/-- Modelled from the spec: create_processing_instruction (§4.2); the value
is interned and the target stored with the record. -/
def create_pi (d : Doc) (target v : String) : Nat × Doc :=
  let r := allocNode d NodeKind.processingInstruction
  let ir := intern r.2.pool v
  (r.1, { r.2 with pool := ir.2,
                   localName := Function.update r.2.localName r.1 target,
                   valueRef := Function.update r.2.valueRef r.1 ir.1 })

/-- Modelled from the spec: unlinking a node from its current parent
(§4.3): it is removed from that parent's sibling chain and its parent
becomes none; nothing else changes. -/
def detach (d : Doc) (c : Nat) : Doc :=
  match d.parent c with
  | none => d
  | some q =>
    { d with parent := Function.update d.parent c none,
             childList := Function.update d.childList q ((d.childList q).erase c) }

/-- The structural error taxonomy of the spec (§7, StructuralViolation),
plus the rejection of handles the arena never issued (inexpressible in the
source language, see Doc). -/
inductive StructError where
  | childIsRoot
  | childIsAncestor
  | notAChild
  | invalidHandle
  deriving DecidableEq, Repr

/-- Modelled from the spec: the relinking part of append_child (§4.3),
after all checks passed: detach the child, then link it as the new last
child of the parent. -/
def linkLastRecord (d : Doc) (p c : Nat) : Doc :=
  let d0 := detach d c
  { d0 with parent := Function.update d0.parent c (some p),
            childList := Function.update d0.childList p (d0.childList p ++ [c]) }

/-- Modelled from the spec: append_child (§4.3).  Fails if the child is
Root or is an ancestor of the parent (cycle prevention, checked by walking
the parent's ancestor chain); all checks precede any mutation, so a
failure leaves every link unchanged. -/
def append_child (d : Doc) (p c : Nat) : Except StructError Doc :=
  if ¬(p < d.size ∧ c < d.size) then Except.error StructError.invalidHandle
  else if d.kind c = NodeKind.root then Except.error StructError.childIsRoot
  else if c ∈ ancestors d p then Except.error StructError.childIsAncestor
  else Except.ok (linkLastRecord d p c)

/-- Total form of append_child: on failure the document is returned
unchanged (the source mutates in place and leaves the links untouched when
it returns an error). -/
def appendTotal (d : Doc) (p c : Nat) : Doc :=
  match append_child d p c with
  | Except.ok d' => d'
  | Except.error _ => d

/-- Insert c immediately before the first occurrence of r in a sibling
list (at the end when r does not occur). -/
def insertBeforeList (c r : Nat) : List Nat → List Nat
  | [] => [c]
  | x :: xs => if x = r then c :: x :: xs else x :: insertBeforeList c r xs

/-- Modelled from the spec: the relinking part of insert_before (§4.3). -/
def insertBeforeRecord (d : Doc) (p c r : Nat) : Doc :=
  let d0 := detach d c
  { d0 with parent := Function.update d0.parent c (some p),
            childList := Function.update d0.childList p (insertBeforeList c r (d0.childList p)) }

/-- Modelled from the spec: insert_before (§4.3): as append_child but the
child is linked immediately before the reference node; fails when the
reference is not currently a child of the parent. -/
def insert_before (d : Doc) (p c r : Nat) : Except StructError Doc :=
  if ¬(p < d.size ∧ c < d.size) then Except.error StructError.invalidHandle
  else if r ∉ d.childList p then Except.error StructError.notAChild
  else if d.kind c = NodeKind.root then Except.error StructError.childIsRoot
  else if c ∈ ancestors d p then Except.error StructError.childIsAncestor
  else Except.ok (insertBeforeRecord d p c r)

/-- Modelled from the spec: remove_child (§4.3): unlinks the child from
the sibling chain under the parent and clears its parent; fails when the
child is not currently attached under that parent. -/
def remove_child (d : Doc) (p c : Nat) : Except StructError Doc :=
  if d.parent c = some p ∧ c ∈ d.childList p then Except.ok (detach d c)
  else Except.error StructError.notAChild

/-- Modelled from the spec: set_attribute (§4.3) via the facade's
set_attribute_value: when an attribute of the qualified name exists on the
element its interned value is updated in place, otherwise a fresh
Attribute record is allocated and registered; the value is interned either
way.  Returns the attribute handle with the new document. -/
def set_attribute_value (d : Doc) (e : Nat) (q v : String) : Nat × Doc :=
  let ir := intern d.pool v
  match (d.attrList e).find? (fun a => d.attrName a == q) with
  | some a =>
    (a, { d with pool := ir.2, valueRef := Function.update d.valueRef a ir.1 })
  | none =>
    let a := d.size
    (a, { d with size := d.size + 1,
                 pool := ir.2,
                 kind := Function.update d.kind a NodeKind.attributeNode,
                 attrName := Function.update d.attrName a q,
                 valueRef := Function.update d.valueRef a ir.1,
                 attrList := Function.update d.attrList e (d.attrList e ++ [a]) })

/-- Modelled from the spec: recording one namespace-declaration attribute
on an element (§4.5, in-scope declarations). -/
def registerNs (d : Doc) (e : Nat) (px uri : String) : Doc :=
  { d with nsDecls := Function.update d.nsDecls e ((px, uri) :: d.nsDecls e) }

/-- Modelled from the spec: the facade query children (§4.4): the ordered
sibling sequence under a node. -/
def children (d : Doc) (n : Nat) : List Nat :=
  d.childList n

/-- Modelled from the spec: the facade query root (§4.4). -/
def rootNode (_d : Doc) : Nat :=
  0

/-- Modelled from the spec: the facade query attribute_value (§4.4). -/
def attribute_value (d : Doc) (e : Nat) (q : String) : Option String :=
  ((d.attrList e).find? (fun a => d.attrName a == q)).map
    (fun a => poolGet d.pool (d.valueRef a))

/-- Number of attributes of the given qualified name on an element. -/
def countNamed (d : Doc) (e : Nat) (q : String) : Nat :=
  ((d.attrList e).filter (fun a => d.attrName a == q)).length

/-- One construction or mutation step of the public API (§6). -/
inductive Op where
  | createElement (name : String)
  | createText (v : String)
  | createComment (v : String)
  | createPI (target v : String)
  | appendChild (p c : Nat)
  | insertBefore (p c r : Nat)
  | removeChild (p c : Nat)
  | setAttribute (e : Nat) (q v : String)
  | registerNsDecl (e : Nat) (px uri : String)

/-- Run one operation against the document; a failing structural operation
reports its error to the caller and leaves the document unchanged (§5:
operations run to completion or fail atomically). -/
def applyOp (d : Doc) : Op → Doc
  | Op.createElement name => (create_element d name).2
  | Op.createText v => (create_text d v).2
  | Op.createComment v => (create_comment d v).2
  | Op.createPI t v => (create_pi d t v).2
  | Op.appendChild p c =>
    match append_child d p c with
    | Except.ok d' => d'
    | Except.error _ => d
  | Op.insertBefore p c r =>
    match insert_before d p c r with
    | Except.ok d' => d'
    | Except.error _ => d
  | Op.removeChild p c =>
    match remove_child d p c with
    | Except.ok d' => d'
    | Except.error _ => d
  | Op.setAttribute e q v => (set_attribute_value d e q v).2
  | Op.registerNsDecl e px uri => registerNs d e px uri

/-- Run a whole sequence of operations from a starting document. -/
def applyOps (d : Doc) (ops : List Op) : Doc :=
  ops.foldl applyOp d

/-- The fixed XML namespace URI implicitly bound to the reserved xml
prefix (§4.5). -/
def xmlNamespaceUri : String :=
  "http://www.w3.org/XML/1998/namespace"

/-- First URI bound to the given prefix in one declaration frame. -/
def lookupDecls (decls : List (String × String)) (px : String) : Option String :=
  (decls.find? (fun b => b.1 == px)).map Prod.snd

/-- Walk a chain of elements outward; the first declaration binding the
prefix wins. -/
def findInScope (d : Doc) : List Nat → String → Option String
  | [], _ => none
  | e :: rest, px =>
    match lookupDecls (d.nsDecls e) px with
    | some u => some u
    | none => findInScope d rest px

/-- Modelled from the spec: the read-direction resolver
resolve_uri_for_prefix (§4.5, §6): walk the element's ancestor chain
outward, first declaration binding the prefix wins; the reserved xml
prefix is implicitly bound; an unbound prefix is an UndeclaredPrefix
error, never defaulted. -/
def resolveUriForPfx (d : Doc) (e : Nat) (px : String) : Except Unit String :=
  if px = "xml" then Except.ok xmlNamespaceUri
  else
    match findInScope d (ancestors d e) px with
    | some u => Except.ok u
    | none => Except.error ()

/-- Modelled from the spec: the writer's serialization-time scope state
(§4.5): the declarations emitted on the element currently being written,
the flattened inherited bindings (nearest first), and the autogeneration
counter. -/
structure WScope where
  cur : List (String × String)
  outer : List (String × String)
  counter : Nat

/-- All in-scope bindings, nearest declaration first. -/
def allBindings (s : WScope) : List (String × String) :=
  s.cur ++ s.outer

/-- The effective (nearest-wins) binding of a prefix. -/
def effLookup (bs : List (String × String)) (px : String) : Option String :=
  (bs.find? (fun b => b.1 == px)).map Prod.snd

/-- A prefix whose effective binding is the given URI, when one exists
(step 1 of §4.5: an already-reachable binding is reused). -/
def pfxFor (bs : List (String × String)) (uri : String) : Option String :=
  (bs.find? (fun b => b.2 == uri && (effLookup bs b.1 == some uri))).map Prod.fst

/-- Deterministic autogenerated prefix names: in-scope uniqueness and
determinism are the only requirements on the scheme (§9). -/
def autoName (k : Nat) : String :=
  String.mk (List.replicate (k + 1) 'x')

/-- First counter value at or after k whose autogenerated name is not
among the given bound prefixes, searched with explicit fuel. -/
def genIdx (names : List String) : Nat → Nat → Nat
  | 0, k => k
  | f + 1, k => if autoName k ∈ names then genIdx names f (k + 1) else k

/-- Declare a binding on the element currently being written. -/
def wDeclare (s : WScope) (px uri : String) : WScope :=
  { s with cur := (px, uri) :: s.cur }

/-- Enter a nested element during writing: its declarations start empty
and everything declared so far is inherited. -/
def pushScope (s : WScope) : WScope :=
  { cur := [], outer := s.cur ++ s.outer, counter := s.counter }

/-- Modelled from the spec: the write-direction resolver
resolve_prefix_for_write (§4.5, three steps): reuse an in-scope binding of
the URI; else use a preferred prefix that is not bound to a different URI,
declaring it here; else synthesize a fresh prefix from the deterministic
scheme and declare it.  Conflicts are always resolved, never an error. -/
def resolvePfxForWrite (s : WScope) (uri : String) (preferred : Option String) :
    String × WScope :=
  match pfxFor (allBindings s) uri with
  | some px => (px, s)
  | none =>
    match preferred with
    | some px =>
      match effLookup (allBindings s) px with
      | none => (px, wDeclare s px uri)
      | some _ =>
        let i := genIdx ((allBindings s).map Prod.fst)
                        (((allBindings s).map Prod.fst).length + 1) s.counter
        (autoName i, { wDeclare s (autoName i) uri with counter := i + 1 })
    | none =>
      let i := genIdx ((allBindings s).map Prod.fst)
                      (((allBindings s).map Prod.fst).length + 1) s.counter
      (autoName i, { wDeclare s (autoName i) uri with counter := i + 1 })

/-- Following parent links: a path from x to y whose list of edge sources
is l (so paths are finite by construction and the empty list gives x = y). -/
inductive IsPath (par : Nat → Option Nat) : Nat → List Nat → Nat → Prop
  | refl (x : Nat) : IsPath par x [] x
  | step {x m y : Nat} {l : List Nat} :
      par x = some m → IsPath par m l y → IsPath par x (x :: l) y

/-- The full parent chain of a node: the node, then its parent, and so on,
ending at a node with no parent. -/
inductive ChainOf (d : Doc) : Nat → List Nat → Prop
  | last {n : Nat} : d.parent n = none → ChainOf d n [n]
  | cons {n q : Nat} {l : List Nat} :
      d.parent n = some q → ChainOf d q l → ChainOf d n (n :: l)

/-- The structural invariant of the spec (§3): handle 0 is the one Root
and has no parent, parent links stay inside the arena, the Connections
table is consistent (a node is in a sibling list exactly when that list's
owner is its parent, and sibling lists are duplicate-free, so every node
has at most one parent), and parent links admit no cycle. -/
structure Inv (d : Doc) : Prop where
  size_pos : 0 < d.size
  root_kind : d.kind 0 = NodeKind.root
  root_parent : d.parent 0 = none
  unique_root : ∀ n, n < d.size → d.kind n = NodeKind.root → n = 0
  parent_bound : ∀ n p, d.parent n = some p → n < d.size ∧ p < d.size
  child_parent : ∀ p c, c ∈ d.childList p → d.parent c = some p
  parent_child : ∀ c p, d.parent c = some p → c ∈ d.childList p
  child_nodup : ∀ p, (d.childList p).Nodup
  acyclic : ∀ n l, l ≠ [] → ¬ IsPath d.parent n l n

/-- The module-doc end-to-end scenario (lib.rs lines 1-15): root is handle
0, the hello element is 1, its planet attribute is 2, the comment is 3 and
the text is 4. -/
def helloScenario : Doc :=
  applyOps emptyDoc
    [Op.createElement "hello",
     Op.setAttribute 1 "planet" "Earth",
     Op.createComment "What about other planets?",
     Op.createText "Greetings, Earthlings!",
     Op.appendChild 1 3,
     Op.appendChild 1 4,
     Op.appendChild 0 1]

/-- A document used as concrete input by several witnesses: the root plus
four fresh elements (handles 1 to 4). -/
def fourElemDoc : Doc :=
  applyOps emptyDoc
    [Op.createElement "a", Op.createElement "b",
     Op.createElement "c", Op.createElement "d"]

/-- A document whose element 1 declares the prefix foo (for the
read-direction resolver witnesses). -/
def nsScenario : Doc :=
  applyOps emptyDoc
    [Op.createElement "a", Op.registerNsDecl 1 "foo" "urn:f",
     Op.createElement "b", Op.appendChild 1 2]

/-- Concrete input for the tree-invariant counterexample: an element
appended under Root and then detached again. -/
def detachScenario : Doc :=
  applyOps emptyDoc
    [Op.createElement "hello", Op.appendChild 0 1, Op.removeChild 0 1]

/-! ## String pool lemmas -/

theorem intern_self (pool : List String) (s : String) :
    intern (intern pool s).2 s = ((intern pool s).1, (intern pool s).2) := by
  induction pool with
  | nil => simp [intern]
  | cons t rest ih =>
    by_cases h : t = s
    · simp [intern, h]
    · simp [intern, h, ih]

theorem intern_length (pool : List String) (s : String) :
    (intern pool s).2.length = pool.length + (if s ∈ pool then 0 else 1) := by
  induction pool with
  | nil => simp [intern]
  | cons t rest ih =>
    by_cases h : t = s
    · simp [intern, h]
    · simp [intern, h, Ne.symm h, List.mem_cons, ih]
      omega

theorem intern_ext (pool : List String) (s : String) (ext : List String) :
    (intern ((intern pool s).2 ++ ext) s).1 = (intern pool s).1 := by
  induction pool with
  | nil => simp [intern]
  | cons t rest ih =>
    by_cases h : t = s
    · simp [intern, h]
    · simp [intern, h, ih]

theorem intern_snd_ext (pool : List String) (t : String) :
    ∃ ext, (intern pool t).2 = pool ++ ext := by
  induction pool with
  | nil => exact ⟨[t], rfl⟩
  | cons t' rest ih =>
    by_cases h : t' = t
    · exact ⟨[], by simp [intern, h]⟩
    · obtain ⟨ext, hext⟩ := ih
      exact ⟨ext, by simp [intern, h, hext]⟩

theorem internAll_ext (ts : List String) (pool : List String) :
    ∃ ext, internAll pool ts = pool ++ ext := by
  induction ts generalizing pool with
  | nil => exact ⟨[], by simp [internAll]⟩
  | cons t ts ih =>
    obtain ⟨e1, h1⟩ := intern_snd_ext pool t
    obtain ⟨e2, h2⟩ := ih (intern pool t).2
    refine ⟨e1 ++ e2, ?_⟩
    show internAll (intern pool t).2 ts = pool ++ (e1 ++ e2)
    rw [h2, h1, List.append_assoc]

theorem intern_get (pool : List String) (s : String) :
    poolGet (intern pool s).2 (intern pool s).1 = s := by
  induction pool with
  | nil => simp [intern, poolGet]
  | cons t rest ih =>
    by_cases h : t = s
    · simp [intern, h, poolGet]
    · simpa [intern, h, poolGet] using ih

/-- C5: interning a string twice yields identity-equal references (the same
pool index) with the pool unchanged by the second call; the pool size grows
exactly on the first call with fresh content and not at all on repeats; and
after any further interning activity the same content still resolves to the
same single backing allocation. -/
theorem interning_idempotent_and_shared (pool : List String) (s : String)
    (ts : List String) :
    intern (intern pool s).2 s = ((intern pool s).1, (intern pool s).2) ∧
    (intern pool s).2.length = pool.length + (if s ∈ pool then 0 else 1) ∧
    (intern (internAll (intern pool s).2 ts) s).1 = (intern pool s).1 := by
  refine ⟨intern_self pool s, intern_length pool s, ?_⟩
  obtain ⟨ext, hext⟩ := internAll_ext ts (intern pool s).2
  rw [hext]
  exact intern_ext pool s ext

/-- C10: the constructors and accessors of the public name types are
mutually inverse: with_prefix / new on PrefixedName and
with_namespace_uri / new / the two From impls on QName store exactly the
given prefix, namespace URI and local part. -/
theorem name_constructors_accessors (p uo : Option String) (l u u' : String) :
    ( PrefixedName.withPfx p l).pfx = p ∧
    ( PrefixedName.withPfx p l).local_part = l ∧
    PrefixedName.new l = PrefixedName.withPfx none l ∧
    (QName.with_namespace_uri uo l).namespace_uri = uo ∧
    (QName.with_namespace_uri uo l).local_part = l ∧
    QName.new l = QName.with_namespace_uri none l ∧
    QName.fromStr u = QName.new u ∧
    QName.fromPair (u', l) = QName.with_namespace_uri (some u') l :=
  ⟨rfl, rfl, rfl, rfl, rfl, rfl, rfl, rfl⟩

/-- C9: Package equality is pointer identity: every Package compares equal
to itself, and two separately constructed Packages (distinct allocation
addresses) are never equal even though their document content is
identical. -/
theorem package_eq_pointer_identity (pk : Package) (a b : Nat) (h : a ≠ b) :
    packageEq pk pk = true ∧
    packageEq (Package.new a) (Package.new b) = false ∧
    (Package.new a).content = (Package.new b).content := by
  refine ⟨by simp [packageEq], ?_, rfl⟩
  simp [packageEq, Package.new, h]

theorem package_eq_pointer_identity_witness :
    packageEq (Package.new 0) (Package.new 1) = false ∧
    (Package.new 0).content = (Package.new 1).content :=
  ⟨(package_eq_pointer_identity (Package.new 0) 0 1 (by decide)).2.1,
   (package_eq_pointer_identity (Package.new 0) 0 1 (by decide)).2.2⟩

/-- C2: the end-to-end scenario of the module doc: after creating element
hello with attribute planet = Earth, appending a comment then a text under
it and appending hello under Root, the root's children are exactly the
hello element, hello's children are the comment then the text, and the
planet attribute reads back as Earth. -/
theorem end_to_end_scenario :
    children helloScenario (rootNode helloScenario) = [1] ∧
    children helloScenario 1 = [3, 4] ∧
    attribute_value helloScenario 1 "planet" = some "Earth" :=
  ⟨by decide, by decide, by decide⟩

/-! ## Parent-path machinery -/

theorem update_update {α β : Type} [DecidableEq α] (f : α → β) (a : α) (v w : β) :
    Function.update (Function.update f a v) a w = Function.update f a w := by
  funext x
  by_cases h : x = a
  · subst h; simp
  · simp [Function.update_noteq h]

theorem isPath_append {par : Nat → Option Nat} {x y z : Nat} {l1 l2 : List Nat}
    (h1 : IsPath par x l1 y) (h2 : IsPath par y l2 z) : IsPath par x (l1 ++ l2) z := by
  induction h1 with
  | refl => exact h2
  | step hpar _ ih => exact IsPath.step hpar (ih h2)

theorem isPath_cons {par : Nat → Option Nat} {x y a : Nat} {l : List Nat}
    (h : IsPath par x (a :: l) y) : x = a ∧ ∃ m, par x = some m ∧ IsPath par m l y := by
  cases h with
  | step hpar hp => exact ⟨rfl, _, hpar, hp⟩

theorem isPath_split {par : Nat → Option Nat} {x y : Nat} {l1 l2 : List Nat}
    (h : IsPath par x (l1 ++ l2) y) : ∃ z, IsPath par x l1 z ∧ IsPath par z l2 y := by
  induction l1 generalizing x with
  | nil => exact ⟨x, IsPath.refl x, h⟩
  | cons a t ih =>
    rw [List.cons_append] at h
    obtain ⟨rfl, m, hpar, hp⟩ := isPath_cons h
    obtain ⟨z, hz1, hz2⟩ := ih hp
    exact ⟨z, IsPath.step hpar hz1, hz2⟩

theorem isPath_congr {par par' : Nat → Option Nat} {x y : Nat} {l : List Nat}
    (hagree : ∀ a ∈ l, par' a = par a) (h : IsPath par x l y) : IsPath par' x l y := by
  induction h with
  | refl => exact IsPath.refl _
  | step hpar hp ih =>
    refine IsPath.step ?_ (ih ?_)
    · rw [hagree _ (List.mem_cons_self _ _)]; exact hpar
    · intro a ha; exact hagree a (List.mem_cons_of_mem _ ha)

theorem isPath_src_isSome {par : Nat → Option Nat} {x y : Nat} {l : List Nat}
    (h : IsPath par x l y) : ∀ a ∈ l, ∃ m, par a = some m := by
  induction h with
  | refl => intro a ha; cases ha
  | step hpar _ ih =>
    intro a ha
    rcases List.mem_cons.mp ha with rfl | ha'
    · exact ⟨_, hpar⟩
    · exact ih a ha'

theorem isPath_not_mem_of_none {par : Nat → Option Nat} {c x y : Nat} {l : List Nat}
    (hc : par c = none) (h : IsPath par x l y) : c ∉ l := by
  intro hmem
  obtain ⟨m, hm⟩ := isPath_src_isSome h c hmem
  rw [hc] at hm
  cases hm

theorem mem_split_first {α : Type} [DecidableEq α] {c : α} {l : List α}
    (h : c ∈ l) : ∃ l1 l2, l = l1 ++ c :: l2 ∧ c ∉ l1 := by
  induction l with
  | nil => cases h
  | cons a t ih =>
    by_cases hac : a = c
    · exact ⟨[], t, by simp [hac], by simp⟩
    · have h' : c ∈ t := by
        rcases List.mem_cons.mp h with h1 | h1
        · exact absurd h1.symm hac
        · exact h1
      obtain ⟨l1, l2, heq, hnm⟩ := ih h'
      exact ⟨a :: l1, l2, by rw [heq]; rfl, by simp [hnm, Ne.symm hac]⟩

theorem acyclic_update_some (par : Nat → Option Nat) (c p : Nat)
    (hAc : ∀ n l, l ≠ [] → ¬ IsPath par n l n)
    (hpre : ∀ l, ¬ IsPath par p l c) :
    ∀ n l, l ≠ [] → ¬ IsPath (Function.update par c (some p)) n l n := by
  intro n l hne hpath
  by_cases hc : c ∈ l
  · obtain ⟨l1, l2, rfl, hnl1⟩ := mem_split_first hc
    obtain ⟨z, hz1, hz2⟩ := isPath_split hpath
    obtain ⟨hzc, -⟩ := isPath_cons hz2
    rw [hzc] at hz1 hz2
    have hcyc : IsPath (Function.update par c (some p)) c ((c :: l2) ++ l1) c :=
      isPath_append hz2 hz1
    obtain ⟨-, m', hparc, hrest⟩ := isPath_cons hcyc
    rw [Function.update_same] at hparc
    injection hparc with hm'
    rw [← hm'] at hrest
    simp only [List.append_eq] at hrest
    by_cases hc2 : c ∈ l2 ++ l1
    · obtain ⟨r1, r2, heq, hnr1⟩ := mem_split_first hc2
      rw [heq] at hrest
      obtain ⟨z2, hz21, hz22⟩ := isPath_split hrest
      obtain ⟨hz2c, -⟩ := isPath_cons hz22
      rw [hz2c] at hz21
      refine hpre r1 (isPath_congr ?_ hz21)
      intro a ha
      have hane : a ≠ c := by intro h; rw [h] at ha; exact hnr1 ha
      exact (Function.update_noteq hane _ par).symm
    · refine hpre (l2 ++ l1) (isPath_congr ?_ hrest)
      intro a ha
      have hane : a ≠ c := by intro h; rw [h] at ha; exact hc2 ha
      exact (Function.update_noteq hane _ par).symm
  · refine hAc n l hne (isPath_congr ?_ hpath)
    intro a ha
    have hane : a ≠ c := by intro h; rw [h] at ha; exact hc ha
    exact (Function.update_noteq hane _ par).symm

theorem acyclic_update_none (par : Nat → Option Nat) (c : Nat)
    (hAc : ∀ n l, l ≠ [] → ¬ IsPath par n l n) :
    ∀ n l, l ≠ [] → ¬ IsPath (Function.update par c none) n l n := by
  intro n l hne hpath
  have hcnot : c ∉ l :=
    isPath_not_mem_of_none (Function.update_same c none par) hpath
  refine hAc n l hne (isPath_congr ?_ hpath)
  intro a ha
  have hane : a ≠ c := by intro h; rw [h] at ha; exact hcnot ha
  exact (Function.update_noteq hane _ par).symm

/-! ## Parent chains: existence, uniqueness, and the fuel bound -/

theorem chainOf_head {d : Doc} {n : Nat} {l : List Nat} (h : ChainOf d n l) :
    ∃ t, l = n :: t := by
  cases h with
  | last _ => exact ⟨[], rfl⟩
  | cons _ _ => exact ⟨_, rfl⟩

theorem chainOf_unique {d : Doc} {n : Nat} {l1 l2 : List Nat}
    (h1 : ChainOf d n l1) (h2 : ChainOf d n l2) : l1 = l2 := by
  induction h1 generalizing l2 with
  | last hn =>
    cases h2 with
    | last _ => rfl
    | cons hq _ => rw [hn] at hq; cases hq
  | cons hq hc ih =>
    cases h2 with
    | last hn => rw [hn] at hq; cases hq
    | cons hq2 hc2 =>
      rw [hq] at hq2
      injection hq2 with h
      rw [ih (h ▸ hc2)]

theorem walkUp_of_chain {d : Doc} {n : Nat} {l : List Nat} (h : ChainOf d n l) :
    ∀ f, l.length ≤ f → walkUp d.parent f n = l := by
  induction h with
  | last hn =>
    intro f hf
    cases f with
    | zero => simp at hf
    | succ f => simp [walkUp, hn]
  | cons hq hc ih =>
    intro f hf
    cases f with
    | zero => simp at hf
    | succ f =>
      simp only [List.length_cons, Nat.succ_le_succ_iff] at hf
      simp [walkUp, hq, ih f hf]

theorem chain_mem_of_path {d : Doc} {n y : Nat} {L l : List Nat}
    (hC : ChainOf d n L) (hp : IsPath d.parent n l y) : y ∈ L := by
  induction hp generalizing L with
  | refl x =>
    obtain ⟨t, rfl⟩ := chainOf_head hC
    exact List.mem_cons_self _ _
  | step hpar hp ih =>
    cases hC with
    | last hn => rw [hn] at hpar; cases hpar
    | cons hq hc =>
      rw [hq] at hpar
      injection hpar with h
      exact List.mem_cons_of_mem _ (ih (h ▸ hc))

theorem chain_mem_path {d : Doc} {q x : Nat} {L : List Nat}
    (h : ChainOf d q L) (hx : x ∈ L) : ∃ l, IsPath d.parent q l x := by
  induction h with
  | last hn =>
    simp at hx
    subst hx
    exact ⟨[], IsPath.refl _⟩
  | cons hq hc ih =>
    rcases List.mem_cons.mp hx with rfl | hx'
    · exact ⟨[], IsPath.refl _⟩
    · obtain ⟨l, hl⟩ := ih hx'
      exact ⟨_ :: l, IsPath.step hq hl⟩

theorem chain_exists_aux (d : Doc) (hI : Inv d) :
    ∀ k n n0 seen, IsPath d.parent n0 seen n → seen.Nodup →
      (∀ x ∈ seen, x < d.size) → d.size + 1 - seen.length = k →
      ∃ L, ChainOf d n L := by
  intro k
  induction k with
  | zero =>
    intro n n0 seen _ hnd hb hk
    exfalso
    have hsub : seen ⊆ List.range d.size := fun x hx => List.mem_range.mpr (hb x hx)
    have hlen := (List.subperm_of_subset hnd hsub).length_le
    rw [List.length_range] at hlen
    omega
  | succ k ih =>
    intro n n0 seen hp hnd hb hk
    cases hpar : d.parent n with
    | none => exact ⟨[n], ChainOf.last hpar⟩
    | some q =>
      have hn_lt : n < d.size := (hI.parent_bound n q hpar).1
      have hnotin : n ∉ seen := by
        intro hmem
        obtain ⟨l1, l2, rfl, hnl1⟩ := mem_split_first hmem
        obtain ⟨z, hz1, hz2⟩ := isPath_split hp
        obtain ⟨hzn, -⟩ := isPath_cons hz2
        rw [hzn] at hz2
        exact hI.acyclic n (n :: l2) (by simp) hz2
      have hp' : IsPath d.parent n0 (seen ++ [n]) q :=
        isPath_append hp (IsPath.step hpar (IsPath.refl q))
      have hnd' : (seen ++ [n]).Nodup := by
        simp [List.nodup_append, hnd, hnotin]
      have hb' : ∀ x ∈ seen ++ [n], x < d.size := by
        intro x hx
        rcases List.mem_append.mp hx with h | h
        · exact hb x h
        · simp at h; rw [h]; exact hn_lt
      obtain ⟨L, hL⟩ := ih q n0 (seen ++ [n]) hp' hnd' hb'
        (by simp only [List.length_append, List.length_cons, List.length_nil]; omega)
      exact ⟨n :: L, ChainOf.cons hpar hL⟩

theorem chain_exists (d : Doc) (hI : Inv d) (n : Nat) : ∃ L, ChainOf d n L :=
  chain_exists_aux d hI (d.size + 1) n n [] (IsPath.refl n) List.nodup_nil
    (by intro x hx; cases hx) (by simp)

theorem chain_nodup (d : Doc) (hI : Inv d) {n : Nat} {L : List Nat}
    (h : ChainOf d n L) : L.Nodup := by
  induction h with
  | last _ => simp
  | cons hq hc ih =>
    rw [List.nodup_cons]
    refine ⟨?_, ih⟩
    intro hmem
    obtain ⟨l, hl⟩ := chain_mem_path hc hmem
    exact hI.acyclic _ (_ :: l) (by simp) (IsPath.step hq hl)

theorem chain_bounded (d : Doc) (hI : Inv d) {n : Nat} {L : List Nat}
    (h : ChainOf d n L) : n < d.size → ∀ x ∈ L, x < d.size := by
  induction h with
  | last _ =>
    intro hn x hx
    simp at hx
    rw [hx]; exact hn
  | cons hq hc ih =>
    intro hn x hx
    rcases List.mem_cons.mp hx with rfl | hx'
    · exact hn
    · exact ih (hI.parent_bound _ _ hq).2 x hx'

theorem chain_length_le (d : Doc) (hI : Inv d) {n : Nat} {L : List Nat}
    (h : ChainOf d n L) : L.length ≤ d.size := by
  by_cases hn : n < d.size
  · have hnd := chain_nodup d hI h
    have hb := chain_bounded d hI h hn
    have hsub : L ⊆ List.range d.size := fun x hx => List.mem_range.mpr (hb x hx)
    have hlen := (List.subperm_of_subset hnd hsub).length_le
    rwa [List.length_range] at hlen
  · cases h with
    | last _ =>
      have := hI.size_pos
      simp only [List.length_cons, List.length_nil]
      omega
    | cons hq _ => exact absurd (hI.parent_bound _ _ hq).1 hn

theorem ancestors_eq_chain (d : Doc) (hI : Inv d) {n : Nat} {L : List Nat}
    (h : ChainOf d n L) : ancestors d n = L :=
  walkUp_of_chain h d.size (chain_length_le d hI h)

theorem mem_ancestors_of_path (d : Doc) (hI : Inv d) {p c : Nat} {l : List Nat}
    (h : IsPath d.parent p l c) : c ∈ ancestors d p := by
  obtain ⟨L, hL⟩ := chain_exists d hI p
  rw [ancestors_eq_chain d hI hL]
  exact chain_mem_of_path hL h

theorem self_mem_ancestors (d : Doc) (h : 0 < d.size) (p : Nat) :
    p ∈ ancestors d p := by
  unfold ancestors
  cases hs : d.size with
  | zero => omega
  | succ f => simp [walkUp]

/-! ## Normal forms of the mutation records -/

theorem detach_parent (d : Doc) (c x : Nat) :
    (detach d c).parent x = if x = c then none else d.parent x := by
  unfold detach
  cases hpc : d.parent c with
  | none =>
    by_cases hxc : x = c
    · rw [hxc, if_pos rfl]; exact hpc
    · rw [if_neg hxc]
  | some q =>
    by_cases hxc : x = c
    · rw [hxc]; simp
    · simp [Function.update_noteq hxc, hxc]

theorem detach_childList (d : Doc) (c p : Nat) :
    (detach d c).childList p =
      if d.parent c = some p then (d.childList p).erase c else d.childList p := by
  unfold detach
  cases hpc : d.parent c with
  | none => simp
  | some q =>
    by_cases hqp : q = p
    · rw [hqp]; simp
    · simp [Function.update_noteq (Ne.symm hqp), hqp]

theorem detach_size (d : Doc) (c : Nat) : (detach d c).size = d.size := by
  unfold detach
  cases d.parent c <;> rfl

theorem detach_kind (d : Doc) (c : Nat) : (detach d c).kind = d.kind := by
  unfold detach
  cases d.parent c <;> rfl

theorem detach_nsDecls (d : Doc) (c : Nat) : (detach d c).nsDecls = d.nsDecls := by
  unfold detach
  cases d.parent c <;> rfl

/-! ## Invariant preservation -/

theorem detach_inv {d : Doc} (hI : Inv d) (c : Nat) : Inv (detach d c) := by
  have hc0 : ∀ q, d.parent c = some q → c ≠ 0 := by
    intro q hq h
    rw [h, hI.root_parent] at hq
    cases hq
  constructor
  · rw [detach_size]; exact hI.size_pos
  · rw [detach_kind]; exact hI.root_kind
  · rw [detach_parent]
    cases hpc : d.parent c with
    | none => simp [hI.root_parent]
    | some q =>
      rw [if_neg (Ne.symm (hc0 q hpc))]
      exact hI.root_parent
  · rw [detach_size, detach_kind]; exact hI.unique_root
  · intro n p h
    rw [detach_parent] at h
    rw [detach_size]
    by_cases hnc : n = c
    · rw [if_pos hnc] at h; cases h
    · rw [if_neg hnc] at h; exact hI.parent_bound n p h
  · intro p c' h
    rw [detach_childList] at h
    rw [detach_parent]
    by_cases hpp : d.parent c = some p
    · rw [if_pos hpp] at h
      have hne : c' ≠ c := ((hI.child_nodup p).mem_erase_iff.mp h).1
      rw [if_neg hne]
      exact hI.child_parent p c' (((hI.child_nodup p).mem_erase_iff.mp h).2)
    · rw [if_neg hpp] at h
      have hcp := hI.child_parent p c' h
      have hne : c' ≠ c := by
        intro hcc
        rw [hcc] at hcp
        exact hpp hcp
      rw [if_neg hne]
      exact hcp
  · intro c' p h
    rw [detach_parent] at h
    by_cases hne : c' = c
    · rw [if_pos hne] at h; cases h
    · rw [if_neg hne] at h
      rw [detach_childList]
      by_cases hpp : d.parent c = some p
      · rw [if_pos hpp]
        exact (List.mem_erase_of_ne hne).mpr (hI.parent_child c' p h)
      · rw [if_neg hpp]
        exact hI.parent_child c' p h
  · intro p
    rw [detach_childList]
    by_cases hpp : d.parent c = some p
    · rw [if_pos hpp]; exact (hI.child_nodup p).erase c
    · rw [if_neg hpp]; exact hI.child_nodup p
  · have hpar : (detach d c).parent = Function.update d.parent c ((detach d c).parent c) := by
      funext x
      by_cases hxc : x = c
      · rw [hxc, Function.update_same]
      · rw [Function.update_noteq hxc, detach_parent, if_neg hxc]
    cases hpc : d.parent c with
    | none =>
      intro n l hne h
      refine hI.acyclic n l hne (isPath_congr ?_ h)
      intro a ha
      rw [detach_parent]
      by_cases hac : a = c
      · rw [if_pos hac, hac, hpc]
      · rw [if_neg hac]
    | some q =>
      rw [hpar, detach_parent, if_pos rfl]
      exact acyclic_update_none d.parent c hI.acyclic

/-- The invariant is preserved by relinking a detached non-root node under
a parent whose reflexive ancestors avoid it; the new sibling list of the
parent may be any duplicate-free list holding exactly the old siblings and
the new child. -/
theorem link_inv (d0 : Doc) (p c : Nat) (newL : List Nat) (hI : Inv d0)
    (hpc : d0.parent c = none) (hc0 : c ≠ 0) (hp : p < d0.size) (hc : c < d0.size)
    (hmem : ∀ x, x ∈ newL ↔ x = c ∨ x ∈ d0.childList p)
    (hnd : newL.Nodup)
    (hpre : ∀ l, ¬ IsPath d0.parent p l c) :
    Inv { d0 with parent := Function.update d0.parent c (some p),
                  childList := Function.update d0.childList p newL } := by
  have hnotchild : ∀ y, c ∉ d0.childList y := by
    intro y hmem'
    have := hI.child_parent y c hmem'
    rw [hpc] at this
    cases this
  constructor
  · exact hI.size_pos
  · exact hI.root_kind
  · show Function.update d0.parent c (some p) 0 = none
    rw [Function.update_noteq (Ne.symm hc0)]
    exact hI.root_parent
  · exact hI.unique_root
  · intro n q h
    replace h : Function.update d0.parent c (some p) n = some q := h
    show n < d0.size ∧ q < d0.size
    by_cases hnc : n = c
    · rw [hnc] at h ⊢
      rw [Function.update_same] at h
      injection h with h
      rw [← h]
      exact ⟨hc, hp⟩
    · rw [Function.update_noteq hnc] at h
      exact hI.parent_bound n q h
  · intro y x h
    replace h : x ∈ Function.update d0.childList p newL y := h
    show Function.update d0.parent c (some p) x = some y
    by_cases hyp : y = p
    · rw [hyp] at h ⊢
      rw [Function.update_same] at h
      rcases (hmem x).mp h with rfl | hx
      · rw [Function.update_same]
      · have hxc : x ≠ c := by
          intro hh
          rw [hh] at hx
          exact hnotchild p hx
        rw [Function.update_noteq hxc]
        exact hI.child_parent p x hx
    · rw [Function.update_noteq hyp] at h
      have hxc : x ≠ c := by
        intro hh
        rw [hh] at h
        exact hnotchild y h
      rw [Function.update_noteq hxc]
      exact hI.child_parent y x h
  · intro x y h
    replace h : Function.update d0.parent c (some p) x = some y := h
    show x ∈ Function.update d0.childList p newL y
    by_cases hxc : x = c
    · rw [hxc] at h ⊢
      rw [Function.update_same] at h
      injection h with h
      rw [← h, Function.update_same]
      exact (hmem c).mpr (Or.inl rfl)
    · rw [Function.update_noteq hxc] at h
      by_cases hyp : y = p
      · rw [hyp] at h ⊢
        rw [Function.update_same]
        exact (hmem x).mpr (Or.inr (hI.parent_child x p h))
      · rw [Function.update_noteq hyp]
        exact hI.parent_child x y h
  · intro y
    show (Function.update d0.childList p newL y).Nodup
    by_cases hyp : y = p
    · rw [hyp, Function.update_same]; exact hnd
    · rw [Function.update_noteq hyp]; exact hI.child_nodup y
  · exact acyclic_update_some d0.parent c p hI.acyclic hpre

/-- Transfer the invariant along equal structural fields: payload-only
changes (pool, interned refs, names, namespace declarations) cannot break
it. -/
theorem inv_congr {d d' : Doc} (hI : Inv d) (hs : d'.size = d.size)
    (hk : d'.kind = d.kind) (hp : d'.parent = d.parent)
    (hc : d'.childList = d.childList) : Inv d' where
  size_pos := by rw [hs]; exact hI.size_pos
  root_kind := by rw [hk]; exact hI.root_kind
  root_parent := by rw [hp]; exact hI.root_parent
  unique_root := by rw [hs, hk]; exact hI.unique_root
  parent_bound := by rw [hs, hp]; exact hI.parent_bound
  child_parent := by rw [hp, hc]; exact hI.child_parent
  parent_child := by rw [hp, hc]; exact hI.parent_child
  child_nodup := by rw [hc]; exact hI.child_nodup
  acyclic := by rw [hp]; exact hI.acyclic

theorem alloc_inv {d : Doc} (hI : Inv d) {k : NodeKind} (hk : k ≠ NodeKind.root) :
    Inv (allocNode d k).2 := by
  constructor
  · show 0 < d.size + 1
    omega
  · show Function.update d.kind d.size k 0 = NodeKind.root
    have h0 : (0 : Nat) ≠ d.size := by have := hI.size_pos; omega
    rw [Function.update_noteq h0]
    exact hI.root_kind
  · exact hI.root_parent
  · intro n hn hkn
    replace hn : n < d.size + 1 := hn
    replace hkn : Function.update d.kind d.size k n = NodeKind.root := hkn
    by_cases hns : n = d.size
    · rw [hns, Function.update_same] at hkn
      exact absurd hkn hk
    · rw [Function.update_noteq hns] at hkn
      exact hI.unique_root n (by omega) hkn
  · intro n p h
    have := hI.parent_bound n p h
    show n < d.size + 1 ∧ p < d.size + 1
    omega
  · exact hI.child_parent
  · exact hI.parent_child
  · exact hI.child_nodup
  · exact hI.acyclic

theorem mem_insertBeforeList {c r x : Nat} : ∀ {l : List Nat},
    x ∈ insertBeforeList c r l ↔ x = c ∨ x ∈ l := by
  intro l
  induction l with
  | nil => simp [insertBeforeList]
  | cons a t ih =>
    by_cases h : a = r
    · simp only [insertBeforeList, if_pos h, List.mem_cons]
    · simp only [insertBeforeList, if_neg h, List.mem_cons, ih]
      tauto

theorem nodup_insertBeforeList {c r : Nat} {l : List Nat} (hnd : l.Nodup)
    (hc : c ∉ l) : (insertBeforeList c r l).Nodup := by
  induction l with
  | nil => simp [insertBeforeList]
  | cons a t ih =>
    rw [List.mem_cons] at hc
    push_neg at hc
    rw [List.nodup_cons] at hnd
    by_cases h : a = r
    · rw [insertBeforeList, if_pos h, List.nodup_cons, List.nodup_cons]
      refine ⟨?_, hnd⟩
      rw [List.mem_cons]
      push_neg
      exact hc
    · rw [insertBeforeList, if_neg h, List.nodup_cons]
      refine ⟨?_, ih hnd.2 hc.2⟩
      rw [mem_insertBeforeList]
      rintro (h' | h')
      · exact hc.1 h'.symm
      · exact hnd.1 h'

/-! ## Success and failure shapes of the structural operations -/

theorem append_ok_elim {d d' : Doc} {p c : Nat}
    (h : append_child d p c = Except.ok d') :
    (p < d.size ∧ c < d.size) ∧ d.kind c ≠ NodeKind.root ∧ c ∉ ancestors d p ∧
      d' = linkLastRecord d p c := by
  unfold append_child at h
  split_ifs at h with h1 h2 h3
  cases h
  exact ⟨h1, h2, h3, rfl⟩

theorem append_ok_intro {d : Doc} {p c : Nat} (hb : p < d.size ∧ c < d.size)
    (hk : d.kind c ≠ NodeKind.root) (ha : c ∉ ancestors d p) :
    append_child d p c = Except.ok (linkLastRecord d p c) := by
  unfold append_child
  rw [if_neg (not_not.mpr hb), if_neg hk, if_neg ha]

theorem insert_ok_elim {d d' : Doc} {p c r : Nat}
    (h : insert_before d p c r = Except.ok d') :
    (p < d.size ∧ c < d.size) ∧ r ∈ d.childList p ∧
      d.kind c ≠ NodeKind.root ∧ c ∉ ancestors d p ∧
      d' = insertBeforeRecord d p c r := by
  unfold insert_before at h
  split_ifs at h with h1 h2 h3 h4
  cases h
  exact ⟨h1, h2, h3, h4, rfl⟩

theorem insert_ok_intro {d : Doc} {p c r : Nat} (hb : p < d.size ∧ c < d.size)
    (hr : r ∈ d.childList p) (hk : d.kind c ≠ NodeKind.root)
    (ha : c ∉ ancestors d p) :
    insert_before d p c r = Except.ok (insertBeforeRecord d p c r) := by
  unfold insert_before
  rw [if_neg (not_not.mpr hb), if_neg (not_not.mpr hr), if_neg hk, if_neg ha]

theorem remove_ok_elim {d d' : Doc} {p c : Nat}
    (h : remove_child d p c = Except.ok d') :
    d.parent c = some p ∧ c ∈ d.childList p ∧ d' = detach d c := by
  unfold remove_child at h
  split_ifs at h with h1
  cases h
  exact ⟨h1.1, h1.2, rfl⟩

theorem append_ok_inv {d d' : Doc} (hI : Inv d) {p c : Nat}
    (h : append_child d p c = Except.ok d') : Inv d' := by
  obtain ⟨⟨hp, hc⟩, hk, ha, rfl⟩ := append_ok_elim h
  have hI0 : Inv (detach d c) := detach_inv hI c
  have hpc0 : (detach d c).parent c = none := by rw [detach_parent, if_pos rfl]
  have hc0 : c ≠ 0 := by
    intro hh
    rw [hh] at hk
    exact hk hI.root_kind
  have hpre : ∀ l, ¬ IsPath (detach d c).parent p l c := by
    intro l hpath
    have hcl : c ∉ l := isPath_not_mem_of_none hpc0 hpath
    have hpath' : IsPath d.parent p l c := by
      refine isPath_congr ?_ hpath
      intro a ha'
      have hane : a ≠ c := by intro hh; rw [hh] at ha'; exact hcl ha'
      rw [detach_parent, if_neg hane]
    exact ha (mem_ancestors_of_path d hI hpath')
  have hnotin : c ∉ (detach d c).childList p := by
    intro hmm
    have := hI0.child_parent p c hmm
    rw [hpc0] at this
    cases this
  have hmem : ∀ x, x ∈ (detach d c).childList p ++ [c] ↔
      x = c ∨ x ∈ (detach d c).childList p := by
    intro x
    simp only [List.mem_append, List.mem_singleton]
    tauto
  have hnd : ((detach d c).childList p ++ [c]).Nodup := by
    rw [List.nodup_append]
    refine ⟨hI0.child_nodup p, List.nodup_singleton c, ?_⟩
    intro a ha1 ha2
    rw [List.mem_singleton] at ha2
    rw [ha2] at ha1
    exact hnotin ha1
  exact link_inv (detach d c) p c ((detach d c).childList p ++ [c]) hI0 hpc0 hc0
    (by rw [detach_size]; exact hp) (by rw [detach_size]; exact hc) hmem hnd hpre

theorem insert_ok_inv {d d' : Doc} (hI : Inv d) {p c r : Nat}
    (h : insert_before d p c r = Except.ok d') : Inv d' := by
  obtain ⟨⟨hp, hc⟩, -, hk, ha, rfl⟩ := insert_ok_elim h
  have hI0 : Inv (detach d c) := detach_inv hI c
  have hpc0 : (detach d c).parent c = none := by rw [detach_parent, if_pos rfl]
  have hc0 : c ≠ 0 := by
    intro hh
    rw [hh] at hk
    exact hk hI.root_kind
  have hpre : ∀ l, ¬ IsPath (detach d c).parent p l c := by
    intro l hpath
    have hcl : c ∉ l := isPath_not_mem_of_none hpc0 hpath
    have hpath' : IsPath d.parent p l c := by
      refine isPath_congr ?_ hpath
      intro a ha'
      have hane : a ≠ c := by intro hh; rw [hh] at ha'; exact hcl ha'
      rw [detach_parent, if_neg hane]
    exact ha (mem_ancestors_of_path d hI hpath')
  have hnotin : c ∉ (detach d c).childList p := by
    intro hmm
    have := hI0.child_parent p c hmm
    rw [hpc0] at this
    cases this
  exact link_inv (detach d c) p c (insertBeforeList c r ((detach d c).childList p))
    hI0 hpc0 hc0 (by rw [detach_size]; exact hp) (by rw [detach_size]; exact hc)
    (fun x => mem_insertBeforeList) (nodup_insertBeforeList (hI0.child_nodup p) hnotin)
    hpre

theorem remove_ok_inv {d d' : Doc} (hI : Inv d) {p c : Nat}
    (h : remove_child d p c = Except.ok d') : Inv d' := by
  obtain ⟨-, -, rfl⟩ := remove_ok_elim h
  exact detach_inv hI c

theorem setAttr_inv {d : Doc} (hI : Inv d) (e : Nat) (q v : String) :
    Inv (set_attribute_value d e q v).2 := by
  unfold set_attribute_value
  cases hfind : (d.attrList e).find? (fun a => d.attrName a == q) with
  | some a =>
    simp only [hfind]
    exact inv_congr hI rfl rfl rfl rfl
  | none =>
    simp only [hfind]
    exact inv_congr (alloc_inv hI (by decide)) rfl rfl rfl rfl

theorem applyOp_inv {d : Doc} (hI : Inv d) (op : Op) : Inv (applyOp d op) := by
  cases op with
  | createElement name => exact inv_congr (alloc_inv hI (by decide)) rfl rfl rfl rfl
  | createText v => exact inv_congr (alloc_inv hI (by decide)) rfl rfl rfl rfl
  | createComment v => exact inv_congr (alloc_inv hI (by decide)) rfl rfl rfl rfl
  | createPI t v => exact inv_congr (alloc_inv hI (by decide)) rfl rfl rfl rfl
  | appendChild p c =>
    cases h : append_child d p c with
    | ok d' =>
      have he : applyOp d (Op.appendChild p c) = d' := by simp [applyOp, h]
      rw [he]
      exact append_ok_inv hI h
    | error err =>
      have he : applyOp d (Op.appendChild p c) = d := by simp [applyOp, h]
      rw [he]
      exact hI
  | insertBefore p c r =>
    cases h : insert_before d p c r with
    | ok d' =>
      have he : applyOp d (Op.insertBefore p c r) = d' := by simp [applyOp, h]
      rw [he]
      exact insert_ok_inv hI h
    | error err =>
      have he : applyOp d (Op.insertBefore p c r) = d := by simp [applyOp, h]
      rw [he]
      exact hI
  | removeChild p c =>
    cases h : remove_child d p c with
    | ok d' =>
      have he : applyOp d (Op.removeChild p c) = d' := by simp [applyOp, h]
      rw [he]
      exact remove_ok_inv hI h
    | error err =>
      have he : applyOp d (Op.removeChild p c) = d := by simp [applyOp, h]
      rw [he]
      exact hI
  | setAttribute e q v => exact setAttr_inv hI e q v
  | registerNsDecl e px uri => exact inv_congr hI rfl rfl rfl rfl

theorem emptyDoc_inv : Inv emptyDoc := by
  constructor
  · decide
  · decide
  · rfl
  · intro n hn _
    have hn1 : n < 1 := hn
    omega
  · intro n p h
    simp [emptyDoc] at h
  · intro p c h
    simp [emptyDoc] at h
  · intro c p h
    simp [emptyDoc] at h
  · intro p
    exact List.nodup_nil
  · intro n l hne hp
    cases hp with
    | refl => exact hne rfl
    | step hpar _ => simp [emptyDoc] at hpar

theorem inv_applyOps (ops : List Op) : Inv (applyOps emptyDoc ops) := by
  have hgen : ∀ d, Inv d → Inv (applyOps d ops) := by
    induction ops with
    | nil => intro d h; exact h
    | cons op ops ih =>
      intro d h
      exact ih (applyOp d op) (applyOp_inv h op)
  exact hgen emptyDoc emptyDoc_inv

/-- C1 (amended): for every document built by any operation sequence from a
new Package, the node structure is a strict forest anchored at the unique
Root: handle 0 is the one Root node created at construction, Root has no
parent, every node has at most one parent (it lies in a sibling list
exactly when that list's owner is its recorded parent, and sibling lists
are duplicate-free), no parent cycle ever exists, and following parent
links from any node terminates in at most size steps at a node with no
parent.  A node currently detached from the tree ends its chain at itself
rather than at Root, which is the one deviation from the original claim. -/
theorem tree_invariant (ops : List Op) :
    (applyOps emptyDoc ops).kind 0 = NodeKind.root ∧
    (applyOps emptyDoc ops).parent 0 = none ∧
    (∀ n, n < (applyOps emptyDoc ops).size →
      (applyOps emptyDoc ops).kind n = NodeKind.root → n = 0) ∧
    (∀ p c, c ∈ children (applyOps emptyDoc ops) p →
      (applyOps emptyDoc ops).parent c = some p) ∧
    (∀ p, (children (applyOps emptyDoc ops) p).Nodup) ∧
    (∀ n l, l ≠ [] → ¬ IsPath (applyOps emptyDoc ops).parent n l n) ∧
    (∀ n, ∃ L, ChainOf (applyOps emptyDoc ops) n L ∧
      L.length ≤ (applyOps emptyDoc ops).size) := by
  have hI : Inv (applyOps emptyDoc ops) := inv_applyOps ops
  refine ⟨hI.root_kind, hI.root_parent, hI.unique_root, hI.child_parent,
    hI.child_nodup, hI.acyclic, ?_⟩
  intro n
  obtain ⟨L, hL⟩ := chain_exists (applyOps emptyDoc ops) hI n
  exact ⟨L, hL, chain_length_le (applyOps emptyDoc ops) hI hL⟩

theorem tree_invariant_witness :
    (applyOps emptyDoc [Op.createElement "a", Op.appendChild 0 1]).parent 1 = some 0 :=
  (tree_invariant [Op.createElement "a", Op.appendChild 0 1]).2.2.2.1 0 1 (by decide)

/-- C1 counterexample: in a document where the hello element (handle 1)
was appended under Root and then removed again, following parent links
from the element terminates immediately at the element itself, so the
chain never reaches the Root node 0 even though node 1 is a live non-root
node: the original claim's "reaches Root" fails for detached nodes. -/
theorem tree_invariant_counterexample :
    detachScenario.kind 0 = NodeKind.root ∧
    detachScenario.kind 1 = NodeKind.element ∧
    1 < detachScenario.size ∧
    detachScenario.parent 1 = none ∧
    ancestors detachScenario 1 = [1] ∧
    (ancestors detachScenario 1).contains 0 = false :=
  ⟨by decide, by decide, by decide, by decide, by decide, by decide⟩

theorem linkLast_parent (d : Doc) (p c : Nat) :
    (linkLastRecord d p c).parent = Function.update d.parent c (some p) := by
  funext x
  show Function.update (detach d c).parent c (some p) x =
    Function.update d.parent c (some p) x
  by_cases hxc : x = c
  · rw [hxc, Function.update_same, Function.update_same]
  · rw [Function.update_noteq hxc, Function.update_noteq hxc, detach_parent, if_neg hxc]

theorem linkLast_size (d : Doc) (p c : Nat) :
    (linkLastRecord d p c).size = d.size := by
  show (detach d c).size = d.size
  exact detach_size d c

theorem linkLast_kind (d : Doc) (p c : Nat) :
    (linkLastRecord d p c).kind = d.kind := by
  show (detach d c).kind = d.kind
  exact detach_kind d c

/-- C6: append_child fails with a structural error when the child is Root
or when the child is a reflexive ancestor of the parent; any failure
leaves every link unchanged (the total form of the operation returns the
untouched document); and success first detaches the child from its current
parent and then links it as the new last child: the child's parent becomes
the target, the target's sibling list is its old list without the child
followed by the child at the end, and the old parent's list loses exactly
the child. -/
theorem append_child_spec (d : Doc) (p c : Nat) (hI : Inv d) :
    (d.kind c = NodeKind.root → ∃ err, append_child d p c = Except.error err) ∧
    ((∃ l, IsPath d.parent p l c) → ∃ err, append_child d p c = Except.error err) ∧
    (∀ err, append_child d p c = Except.error err → appendTotal d p c = d) ∧
    (∀ d', append_child d p c = Except.ok d' →
      d'.parent c = some p ∧
      children d' p = (children d p).erase c ++ [c] ∧
      (∀ q, d.parent c = some q → q ≠ p →
        children d' q = (children d q).erase c)) := by
  refine ⟨?_, ?_, ?_, ?_⟩
  · intro hk
    unfold append_child
    by_cases hb : p < d.size ∧ c < d.size
    · exact ⟨StructError.childIsRoot, by rw [if_neg (not_not.mpr hb), if_pos hk]⟩
    · exact ⟨StructError.invalidHandle, by rw [if_pos hb]⟩
  · intro hl
    obtain ⟨l, hl⟩ := hl
    have hmem : c ∈ ancestors d p := mem_ancestors_of_path d hI hl
    unfold append_child
    by_cases hb : p < d.size ∧ c < d.size
    · by_cases hk : d.kind c = NodeKind.root
      · exact ⟨StructError.childIsRoot, by rw [if_neg (not_not.mpr hb), if_pos hk]⟩
      · exact ⟨StructError.childIsAncestor,
          by rw [if_neg (not_not.mpr hb), if_neg hk, if_pos hmem]⟩
    · exact ⟨StructError.invalidHandle, by rw [if_pos hb]⟩
  · intro err herr
    unfold appendTotal
    rw [herr]
  · intro d' hok
    obtain ⟨⟨hp, hc⟩, hk, ha, rfl⟩ := append_ok_elim hok
    refine ⟨?_, ?_, ?_⟩
    · show Function.update (detach d c).parent c (some p) c = some p
      rw [Function.update_same]
    · show Function.update (detach d c).childList p
        ((detach d c).childList p ++ [c]) p = (d.childList p).erase c ++ [c]
      rw [Function.update_same, detach_childList]
      by_cases hpp : d.parent c = some p
      · rw [if_pos hpp]
      · rw [if_neg hpp]
        have hnm : c ∉ d.childList p := by
          intro hmm
          exact hpp (hI.child_parent p c hmm)
        rw [List.erase_of_not_mem hnm]
    · intro q hq hqp
      show Function.update (detach d c).childList p
        ((detach d c).childList p ++ [c]) q = (d.childList q).erase c
      rw [Function.update_noteq hqp, detach_childList, if_pos hq]

theorem append_child_spec_witness :
    ∃ err, append_child fourElemDoc 1 0 = Except.error err :=
  (append_child_spec fourElemDoc 1 0
    (inv_applyOps [Op.createElement "a", Op.createElement "b",
      Op.createElement "c", Op.createElement "d"])).1 (by decide)

theorem walkUp_update {par : Nat → Option Nat} {c : Nat} (v : Option Nat) :
    ∀ f p, c ∉ walkUp par f p →
      walkUp (Function.update par c v) f p = walkUp par f p := by
  intro f
  induction f with
  | zero => intro p _; rfl
  | succ f ih =>
    intro p h
    have hpc : p ≠ c := by
      intro hh
      refine h ?_
      rw [walkUp, hh]
      exact List.mem_cons_self _ _
    have hup : Function.update par c v p = par p := Function.update_noteq hpc v par
    rw [walkUp, walkUp, hup]
    cases hq : par p with
    | none => rfl
    | some q =>
      have htail : c ∉ walkUp par f q := by
        intro hmem
        refine h ?_
        rw [walkUp, hq]
        exact List.mem_cons_of_mem _ hmem
      show p :: walkUp (Function.update par c v) f q = p :: walkUp par f q
      rw [ih q htail]

theorem linkLast_ancestors (d : Doc) (p c : Nat) (ha : c ∉ ancestors d p) :
    ancestors (linkLastRecord d p c) p = ancestors d p := by
  unfold ancestors
  rw [linkLast_size, linkLast_parent]
  exact walkUp_update (some p) d.size p ha

theorem append_step (d : Doc) (p c : Nat) (hp : p < d.size) (hc : c < d.size)
    (hk : d.kind c ≠ NodeKind.root) (ha : c ∉ ancestors d p)
    (hnotin : c ∉ d.childList p) :
    append_child d p c = Except.ok (linkLastRecord d p c) ∧
    (linkLastRecord d p c).size = d.size ∧
    (linkLastRecord d p c).kind = d.kind ∧
    (linkLastRecord d p c).childList p = d.childList p ++ [c] ∧
    ancestors (linkLastRecord d p c) p = ancestors d p := by
  refine ⟨append_ok_intro ⟨hp, hc⟩ hk ha, linkLast_size d p c, linkLast_kind d p c,
    ?_, linkLast_ancestors d p c ha⟩
  show Function.update (detach d c).childList p
    ((detach d c).childList p ++ [c]) p = d.childList p ++ [c]
  rw [Function.update_same, detach_childList]
  by_cases hpp : d.parent c = some p
  · rw [if_pos hpp, List.erase_of_not_mem hnotin]
  · rw [if_neg hpp]

theorem insert_step (d : Doc) (p c r : Nat) (hp : p < d.size) (hc : c < d.size)
    (hr : r ∈ d.childList p) (hk : d.kind c ≠ NodeKind.root)
    (ha : c ∉ ancestors d p) (hnotin : c ∉ d.childList p) :
    insert_before d p c r = Except.ok (insertBeforeRecord d p c r) ∧
    (insertBeforeRecord d p c r).childList p = insertBeforeList c r (d.childList p) := by
  refine ⟨insert_ok_intro ⟨hp, hc⟩ hr hk ha, ?_⟩
  show Function.update (detach d c).childList p
    (insertBeforeList c r ((detach d c).childList p)) p
    = insertBeforeList c r (d.childList p)
  rw [Function.update_same, detach_childList]
  by_cases hpp : d.parent c = some p
  · rw [if_pos hpp, List.erase_of_not_mem hnotin]
  · rw [if_neg hpp]

/-- C3: appending three distinct fresh children under a parent with no
children yields exactly those children in insertion order, and a
subsequent insert_before of a fourth child relative to the second yields
the second-position insertion; iteration (the children query) reports this
order.  Freshness is expressed by the checks the operations themselves
make: the children are allocated non-root handles, distinct from each
other, not reflexive ancestors of the parent, and the parent starts with
an empty sibling list. -/
theorem order_preservation (d : Doc) (p c1 c2 c3 c4 : Nat)
    (hp : p < d.size) (h1 : c1 < d.size) (h2 : c2 < d.size) (h3 : c3 < d.size)
    (h4 : c4 < d.size)
    (hk1 : d.kind c1 ≠ NodeKind.root) (hk2 : d.kind c2 ≠ NodeKind.root)
    (hk3 : d.kind c3 ≠ NodeKind.root) (hk4 : d.kind c4 ≠ NodeKind.root)
    (h12 : c1 ≠ c2) (h13 : c1 ≠ c3) (h23 : c2 ≠ c3)
    (h41 : c4 ≠ c1) (h42 : c4 ≠ c2) (h43 : c4 ≠ c3)
    (ha1 : c1 ∉ ancestors d p) (ha2 : c2 ∉ ancestors d p)
    (ha3 : c3 ∉ ancestors d p) (ha4 : c4 ∉ ancestors d p)
    (h0 : d.childList p = []) :
    ∃ d1 d2 d3 d4,
      append_child d p c1 = Except.ok d1 ∧
      append_child d1 p c2 = Except.ok d2 ∧
      append_child d2 p c3 = Except.ok d3 ∧
      children d3 p = [c1, c2, c3] ∧
      insert_before d3 p c4 c2 = Except.ok d4 ∧
      children d4 p = [c1, c4, c2, c3] := by
  obtain ⟨hok1, hs1, hkd1, hcl1, han1⟩ :=
    append_step d p c1 hp h1 hk1 ha1 (by rw [h0]; exact List.not_mem_nil c1)
  set d1 := linkLastRecord d p c1 with hd1
  rw [h0] at hcl1
  obtain ⟨hok2, hs2, hkd2, hcl2, han2⟩ :=
    append_step d1 p c2 (by rw [hs1]; exact hp) (by rw [hs1]; exact h2)
      (by rw [hkd1]; exact hk2) (by rw [han1]; exact ha2)
      (by rw [hcl1]; simp [Ne.symm h12])
  set d2 := linkLastRecord d1 p c2 with hd2
  rw [hcl1] at hcl2
  obtain ⟨hok3, hs3, hkd3, hcl3, han3⟩ :=
    append_step d2 p c3 (by rw [hs2, hs1]; exact hp) (by rw [hs2, hs1]; exact h3)
      (by rw [hkd2, hkd1]; exact hk3) (by rw [han2, han1]; exact ha3)
      (by rw [hcl2]; simp [Ne.symm h13, Ne.symm h23])
  set d3 := linkLastRecord d2 p c3 with hd3
  rw [hcl2] at hcl3
  have hcl3' : d3.childList p = [c1, c2, c3] := by
    rw [hcl3]
    rfl
  obtain ⟨hok4, hcl4⟩ :=
    insert_step d3 p c4 c2 (by rw [hs3, hs2, hs1]; exact hp)
      (by rw [hs3, hs2, hs1]; exact h4)
      (by rw [hcl3']; simp)
      (by rw [hkd3, hkd2, hkd1]; exact hk4)
      (by rw [han3, han2, han1]; exact ha4)
      (by rw [hcl3']; simp [Ne.symm h41, Ne.symm h42, Ne.symm h43, h41, h42, h43])
  refine ⟨d1, d2, d3, insertBeforeRecord d3 p c4 c2, hok1, hok2, hok3, hcl3', hok4, ?_⟩
  show (insertBeforeRecord d3 p c4 c2).childList p = [c1, c4, c2, c3]
  rw [hcl4, hcl3']
  rw [insertBeforeList, if_neg h12, insertBeforeList, if_pos rfl]

theorem order_preservation_witness :
    ∃ d1 d2 d3 d4,
      append_child fourElemDoc 0 1 = Except.ok d1 ∧
      append_child d1 0 2 = Except.ok d2 ∧
      append_child d2 0 3 = Except.ok d3 ∧
      children d3 0 = [1, 2, 3] ∧
      insert_before d3 0 4 2 = Except.ok d4 ∧
      children d4 0 = [1, 4, 2, 3] :=
  order_preservation fourElemDoc 0 1 2 3 4 (by decide) (by decide) (by decide)
    (by decide) (by decide) (by decide) (by decide) (by decide) (by decide)
    (by decide) (by decide) (by decide) (by decide) (by decide) (by decide)
    (by decide) (by decide) (by decide) (by decide) (by decide)

/-! ## Attribute setting -/

theorem setAttr_found (d : Doc) (e : Nat) (q v : String) {a : Nat}
    (hfind : (d.attrList e).find? (fun x => d.attrName x == q) = some a) :
    set_attribute_value d e q v
      = (a, { d with pool := (intern d.pool v).2,
                     valueRef := Function.update d.valueRef a (intern d.pool v).1 }) := by
  unfold set_attribute_value
  rw [hfind]

theorem setAttr_new (d : Doc) (e : Nat) (q v : String)
    (hfind : (d.attrList e).find? (fun x => d.attrName x == q) = none) :
    set_attribute_value d e q v
      = (d.size,
         { d with
             size := d.size + 1,
             pool := (intern d.pool v).2,
             kind := Function.update d.kind d.size NodeKind.attributeNode,
             attrName := Function.update d.attrName d.size q,
             valueRef := Function.update d.valueRef d.size (intern d.pool v).1,
             attrList := Function.update d.attrList e (d.attrList e ++ [d.size]) }) := by
  unfold set_attribute_value
  rw [hfind]

theorem find?_append_none {α : Type} {pr : α → Bool} {l1 l2 : List α}
    (h : ∀ x ∈ l1, ¬ pr x) :
    (l1 ++ l2).find? pr = l2.find? pr := by
  induction l1 with
  | nil => rfl
  | cons a t ih =>
    rw [List.cons_append, List.find?_cons_of_neg _ (h a (List.mem_cons_self _ _))]
    exact ih (fun x hx => h x (List.mem_cons_of_mem _ hx))

/-- C4: setting an attribute of the same qualified name twice updates the
existing attribute record in place: the second call returns the same
attribute handle as the first, exactly one attribute of that name remains
on the element, its interned value reads back as the second value, and
the element's attribute list is not extended by the second call.  The two
hypotheses say the element's attribute list is inside the arena and names
are unique on it, which every reachable document satisfies. -/
theorem attribute_replace (d : Doc) (e : Nat) (q v1 v2 : String)
    (hA : ∀ a ∈ d.attrList e, a < d.size)
    (hC : countNamed d e q ≤ 1) :
    (set_attribute_value (set_attribute_value d e q v1).2 e q v2).1
      = (set_attribute_value d e q v1).1 ∧
    countNamed (set_attribute_value (set_attribute_value d e q v1).2 e q v2).2 e q = 1 ∧
    attribute_value (set_attribute_value (set_attribute_value d e q v1).2 e q v2).2 e q
      = some v2 ∧
    (set_attribute_value (set_attribute_value d e q v1).2 e q v2).2.attrList e
      = (set_attribute_value d e q v1).2.attrList e := by
  cases hfind : (d.attrList e).find? (fun x => d.attrName x == q) with
  | some a =>
    have e1a : (set_attribute_value d e q v1).1 = a := by
      rw [setAttr_found d e q v1 hfind]
    have e1L : (set_attribute_value d e q v1).2.attrList = d.attrList := by
      rw [setAttr_found d e q v1 hfind]
    have e1N : (set_attribute_value d e q v1).2.attrName = d.attrName := by
      rw [setAttr_found d e q v1 hfind]
    have e1P : (set_attribute_value d e q v1).2.pool = (intern d.pool v1).2 := by
      rw [setAttr_found d e q v1 hfind]
    have hfind2 : ((set_attribute_value d e q v1).2.attrList e).find?
        (fun x => (set_attribute_value d e q v1).2.attrName x == q) = some a := by
      rw [e1L, e1N]
      exact hfind
    have h2 := setAttr_found (set_attribute_value d e q v1).2 e q v2 hfind2
    have e2a : (set_attribute_value (set_attribute_value d e q v1).2 e q v2).1 = a := by
      rw [h2]
    have e2L : (set_attribute_value (set_attribute_value d e q v1).2 e q v2).2.attrList
        = (set_attribute_value d e q v1).2.attrList := by rw [h2]
    have e2N : (set_attribute_value (set_attribute_value d e q v1).2 e q v2).2.attrName
        = (set_attribute_value d e q v1).2.attrName := by rw [h2]
    have e2P : (set_attribute_value (set_attribute_value d e q v1).2 e q v2).2.pool
        = (intern (set_attribute_value d e q v1).2.pool v2).2 := by rw [h2]
    have e2V : (set_attribute_value (set_attribute_value d e q v1).2 e q v2).2.valueRef
        = Function.update (set_attribute_value d e q v1).2.valueRef a
            (intern (set_attribute_value d e q v1).2.pool v2).1 := by rw [h2]
    have hcount : countNamed d e q = 1 := by
      have hpa := List.find?_some hfind
      have hmem : a ∈ (d.attrList e).filter (fun x => d.attrName x == q) :=
        List.mem_filter.mpr ⟨List.mem_of_find?_eq_some hfind, hpa⟩
      have hge : 0 < countNamed d e q := List.length_pos_of_mem hmem
      omega
    refine ⟨by rw [e2a, e1a], ?_, ?_, by rw [e2L]⟩
    · unfold countNamed
      rw [e2L, e2N, e1L, e1N]
      exact hcount
    · unfold attribute_value
      rw [e2L, e2N, e1L, e1N, hfind]
      simp only [Option.map_some']
      rw [e2P, e2V, Function.update_same]
      exact congrArg some (intern_get (set_attribute_value d e q v1).2.pool v2)
  | none =>
    have hold : ∀ x ∈ d.attrList e,
        ¬ (Function.update d.attrName d.size q x == q) := by
      intro x hx
      have hxlt : x < d.size := hA x hx
      have hxne : x ≠ d.size := by omega
      rw [Function.update_noteq hxne]
      exact List.find?_eq_none.mp hfind x hx
    have hsingle : [d.size].find?
        (fun x => Function.update d.attrName d.size q x == q) = some d.size :=
      List.find?_cons_of_pos _ (by rw [Function.update_same]; exact beq_self_eq_true q)
    have hfsingle : [d.size].filter
        (fun x => Function.update d.attrName d.size q x == q) = [d.size] := by
      simp
    have e1a : (set_attribute_value d e q v1).1 = d.size := by
      rw [setAttr_new d e q v1 hfind]
    have e1L : (set_attribute_value d e q v1).2.attrList
        = Function.update d.attrList e (d.attrList e ++ [d.size]) := by
      rw [setAttr_new d e q v1 hfind]
    have e1N : (set_attribute_value d e q v1).2.attrName
        = Function.update d.attrName d.size q := by
      rw [setAttr_new d e q v1 hfind]
    have hfind2 : ((set_attribute_value d e q v1).2.attrList e).find?
        (fun x => (set_attribute_value d e q v1).2.attrName x == q) = some d.size := by
      rw [e1L, e1N, Function.update_same, find?_append_none hold, hsingle]
    have h2 := setAttr_found (set_attribute_value d e q v1).2 e q v2 hfind2
    have e2a : (set_attribute_value (set_attribute_value d e q v1).2 e q v2).1
        = d.size := by rw [h2]
    have e2L : (set_attribute_value (set_attribute_value d e q v1).2 e q v2).2.attrList
        = (set_attribute_value d e q v1).2.attrList := by rw [h2]
    have e2N : (set_attribute_value (set_attribute_value d e q v1).2 e q v2).2.attrName
        = (set_attribute_value d e q v1).2.attrName := by rw [h2]
    have e2P : (set_attribute_value (set_attribute_value d e q v1).2 e q v2).2.pool
        = (intern (set_attribute_value d e q v1).2.pool v2).2 := by rw [h2]
    have e2V : (set_attribute_value (set_attribute_value d e q v1).2 e q v2).2.valueRef
        = Function.update (set_attribute_value d e q v1).2.valueRef d.size
            (intern (set_attribute_value d e q v1).2.pool v2).1 := by rw [h2]
    refine ⟨by rw [e2a, e1a], ?_, ?_, by rw [e2L]⟩
    · unfold countNamed
      rw [e2L, e2N, e1L, e1N, Function.update_same, List.filter_append]
      rw [List.filter_eq_nil_iff.mpr hold, hfsingle]
      rfl
    · unfold attribute_value
      rw [e2L, e2N, e1L, e1N, Function.update_same, find?_append_none hold, hsingle]
      simp only [Option.map_some']
      rw [e2P, e2V, Function.update_same]
      exact congrArg some (intern_get (set_attribute_value d e q v1).2.pool v2)

theorem attribute_replace_witness :
    countNamed (set_attribute_value
      (set_attribute_value fourElemDoc 1 "id" "a").2 1 "id" "b").2 1 "id" = 1 ∧
    attribute_value (set_attribute_value
      (set_attribute_value fourElemDoc 1 "id" "a").2 1 "id" "b").2 1 "id" = some "b" :=
  ⟨(attribute_replace fourElemDoc 1 "id" "a" "b" (by decide) (by decide)).2.1,
   (attribute_replace fourElemDoc 1 "id" "a" "b" (by decide) (by decide)).2.2.1⟩

/-! ## Read-direction namespace resolution -/

theorem resolve_own_decl (d : Doc) (hI : Inv d) (e : Nat) (px u : String)
    (hxml : px ≠ "xml") (hdecl : lookupDecls (d.nsDecls e) px = some u) :
    resolveUriForPfx d e px = Except.ok u := by
  obtain ⟨t, ht⟩ : ∃ t, ancestors d e = e :: t := by
    unfold ancestors
    cases hs : d.size with
    | zero => exact absurd hI.size_pos (by omega)
    | succ f => exact ⟨_, rfl⟩
  have hf : findInScope d (e :: t) px = some u := by
    unfold findInScope
    rw [hdecl]
  unfold resolveUriForPfx
  rw [if_neg hxml, ht, hf]

theorem resolve_parent_step (d : Doc) (hI : Inv d) (e pe : Nat) (px : String)
    (hxml : px ≠ "xml") (hdecl : lookupDecls (d.nsDecls e) px = none)
    (hpar : d.parent e = some pe) :
    resolveUriForPfx d e px = resolveUriForPfx d pe px := by
  obtain ⟨L, hL⟩ := chain_exists d hI e
  cases hL with
  | last hn => rw [hn] at hpar; cases hpar
  | @cons _ q l hq hc =>
    rw [hpar] at hq
    injection hq with hqpe
    subst hqpe
    have hCe : ChainOf d e (e :: l) := ChainOf.cons hpar hc
    have hanc_e : ancestors d e = e :: l := ancestors_eq_chain d hI hCe
    have hanc_p : ancestors d pe = l := ancestors_eq_chain d hI hc
    have hstep : findInScope d (e :: l) px = findInScope d l px := by
      rw [findInScope, hdecl]
    unfold resolveUriForPfx
    rw [if_neg hxml, if_neg hxml, hanc_e, hanc_p, hstep]

theorem findInScope_none (d : Doc) (px : String) :
    ∀ chain, (∀ a ∈ chain, lookupDecls (d.nsDecls a) px = none) →
      findInScope d chain px = none := by
  intro chain
  induction chain with
  | nil => intro _; rfl
  | cons a rest ih =>
    intro h
    unfold findInScope
    rw [h a (List.mem_cons_self _ _)]
    exact ih (fun x hx => h x (List.mem_cons_of_mem _ hx))

theorem resolve_undeclared (d : Doc) (e : Nat) (px : String)
    (hxml : px ≠ "xml")
    (hnone : ∀ a ∈ ancestors d e, lookupDecls (d.nsDecls a) px = none) :
    resolveUriForPfx d e px = Except.error () := by
  unfold resolveUriForPfx
  rw [if_neg hxml, findInScope_none d px (ancestors d e) hnone]

/-- C7: read-direction resolution walks the element's ancestor chain
outward with the nearest declaration winning: the reserved xml prefix
always resolves to the fixed XML namespace URI without any declaration; a
declaration on the element itself wins regardless of ancestors; when the
element does not bind the prefix, resolution equals resolution at its
parent; and when no element of the ancestor chain binds the prefix the
result is the UndeclaredPrefix error, never a default. -/
theorem read_resolution (d : Doc) (e : Nat) (px u : String) (hI : Inv d) :
    resolveUriForPfx d e "xml" = Except.ok xmlNamespaceUri ∧
    (px ≠ "xml" → lookupDecls (d.nsDecls e) px = some u →
      resolveUriForPfx d e px = Except.ok u) ∧
    (∀ pe, px ≠ "xml" → lookupDecls (d.nsDecls e) px = none →
      d.parent e = some pe →
      resolveUriForPfx d e px = resolveUriForPfx d pe px) ∧
    (px ≠ "xml" → (∀ a ∈ ancestors d e, lookupDecls (d.nsDecls a) px = none) →
      resolveUriForPfx d e px = Except.error ()) := by
  refine ⟨?_, ?_, ?_, ?_⟩
  · unfold resolveUriForPfx
    rw [if_pos rfl]
  · intro hxml hdecl
    exact resolve_own_decl d hI e px u hxml hdecl
  · intro pe hxml hdecl hpar
    exact resolve_parent_step d hI e pe px hxml hdecl hpar
  · intro hxml hnone
    exact resolve_undeclared d e px hxml hnone

theorem read_resolution_witness :
    resolveUriForPfx nsScenario 1 "foo" = Except.ok "urn:f" ∧
    resolveUriForPfx nsScenario 2 "foo" = resolveUriForPfx nsScenario 1 "foo" ∧
    resolveUriForPfx nsScenario 1 "bar" = Except.error () :=
  ⟨(read_resolution nsScenario 1 "foo" "urn:f"
      (inv_applyOps [Op.createElement "a", Op.registerNsDecl 1 "foo" "urn:f",
        Op.createElement "b", Op.appendChild 1 2])).2.1 (by decide) (by decide),
   (read_resolution nsScenario 2 "foo" "urn:f"
      (inv_applyOps [Op.createElement "a", Op.registerNsDecl 1 "foo" "urn:f",
        Op.createElement "b", Op.appendChild 1 2])).2.2.1 1 (by decide) (by decide)
      (by decide),
   (read_resolution nsScenario 1 "bar" ""
      (inv_applyOps [Op.createElement "a", Op.registerNsDecl 1 "foo" "urn:f",
        Op.createElement "b", Op.appendChild 1 2])).2.2.2 (by decide) (by decide)⟩

/-! ## Write-direction namespace resolution -/

theorem autoName_inj {a b : Nat} (h : autoName a = autoName b) : a = b := by
  have hd : List.replicate (a + 1) 'x' = List.replicate (b + 1) 'x' :=
    congrArg String.data h
  have hlen := congrArg List.length hd
  rw [List.length_replicate, List.length_replicate] at hlen
  omega

theorem genIdx_spec (names : List String) :
    ∀ f k, (∃ i, i < f ∧ autoName (k + i) ∉ names) →
      autoName (genIdx names f k) ∉ names := by
  intro f
  induction f with
  | zero =>
    intro k h
    obtain ⟨i, hi, -⟩ := h
    omega
  | succ f ih =>
    intro k h
    rw [genIdx]
    by_cases hmem : autoName k ∈ names
    · rw [if_pos hmem]
      refine ih (k + 1) ?_
      obtain ⟨i, hi, hfree⟩ := h
      cases i with
      | zero =>
        rw [Nat.add_zero] at hfree
        exact absurd hmem hfree
      | succ i =>
        refine ⟨i, by omega, ?_⟩
        have harith : k + 1 + i = k + (i + 1) := by omega
        rw [harith]
        exact hfree
    · rw [if_neg hmem]
      exact hmem

theorem exists_fresh_autoName (names : List String) (k : Nat) :
    ∃ i, i < names.length + 1 ∧ autoName (k + i) ∉ names := by
  by_contra hcon
  push_neg at hcon
  have hsub : ((List.range (names.length + 1)).map (fun i => autoName (k + i)))
      ⊆ names := by
    intro x hx
    rw [List.mem_map] at hx
    obtain ⟨i, hi, rfl⟩ := hx
    exact hcon i (List.mem_range.mp hi)
  have hnd : ((List.range (names.length + 1)).map (fun i => autoName (k + i))).Nodup := by
    refine List.Nodup.map ?_ (List.nodup_range _)
    intro a b hab
    have := autoName_inj hab
    omega
  have hlen := (List.subperm_of_subset hnd hsub).length_le
  rw [List.length_map, List.length_range] at hlen
  omega

theorem genIdx_fresh (names : List String) (k : Nat) :
    autoName (genIdx names (names.length + 1) k) ∉ names :=
  genIdx_spec names (names.length + 1) k (exists_fresh_autoName names k)

theorem effLookup_head (bs : List (String × String)) (px u : String) :
    effLookup ((px, u) :: bs) px = some u := by
  simp [effLookup]

theorem effLookup_cons_ne (bs : List (String × String)) (px py u : String)
    (h : py ≠ px) :
    effLookup ((py, u) :: bs) px = effLookup bs px := by
  unfold effLookup
  rw [List.find?_cons_of_neg _ (by simp [h])]

theorem effLookup_none_elim {bs : List (String × String)} {px : String}
    (h : effLookup bs px = none) : ∀ b ∈ bs, b.1 ≠ px := by
  intro b hb
  unfold effLookup at h
  rw [Option.map_eq_none'] at h
  have := List.find?_eq_none.mp h b hb
  simpa using this

theorem pfxFor_head (bs : List (String × String)) (p U : String) :
    pfxFor ((p, U) :: bs) U = some p := by
  have hcond : ((p, U).2 == U && (effLookup ((p, U) :: bs) (p, U).1 == some U)) = true := by
    simp [effLookup_head]
  have hfind : List.find? (fun b => b.2 == U && (effLookup ((p, U) :: bs) b.1 == some U))
      ((p, U) :: bs) = some (p, U) :=
    List.find?_cons_of_pos _ hcond
  unfold pfxFor
  rw [hfind]
  rfl

theorem pfxFor_cons_none (bs : List (String × String)) (p U V : String)
    (hUV : U ≠ V) (hp : ∀ b ∈ bs, b.1 ≠ p)
    (hnone : pfxFor bs V = none) :
    pfxFor ((p, U) :: bs) V = none := by
  unfold pfxFor at hnone ⊢
  rw [Option.map_eq_none'] at hnone ⊢
  have htail := List.find?_eq_none.mp hnone
  refine List.find?_eq_none.mpr ?_
  intro b hb
  rcases List.mem_cons.mp hb with rfl | hb'
  · simp [hUV]
  · have hb1 : b.1 ≠ p := hp b hb'
    have heff : effLookup ((p, U) :: bs) b.1 = effLookup bs b.1 :=
      effLookup_cons_ne bs b.1 p U (fun hh => hb1 hh.symm)
    have hbt := htail b hb'
    simp only [heff]
    simpa using hbt

theorem write_step1 (s₀ : WScope) (U p : String)
    (h1 : effLookup (allBindings s₀) p = none)
    (h2 : pfxFor (allBindings s₀) U = none) :
    resolvePfxForWrite s₀ U (some p) = (p, wDeclare s₀ p U) := by
  simp only [resolvePfxForWrite, h2, h1]

theorem write_step3 (s : WScope) (V px u0 : String)
    (hfor : pfxFor (allBindings s) V = none)
    (heff : effLookup (allBindings s) px = some u0) :
    (resolvePfxForWrite s V (some px)).1 ∉ (allBindings s).map Prod.fst ∧
    (resolvePfxForWrite s V (some px)).2.cur
      = ((resolvePfxForWrite s V (some px)).1, V) :: s.cur ∧
    (resolvePfxForWrite s V (some px)).2.outer = s.outer := by
  simp only [resolvePfxForWrite, hfor, heff]
  exact ⟨genIdx_fresh _ _, rfl, rfl⟩

/-- C8: writing an element that declares URI U with preferred prefix p
free in scope emits p and declares it; a nested element with the same URI
reuses p and declares nothing; a nested element with a different URI V but
the same preferred prefix p receives a distinct autogenerated prefix; and
in the resulting scope both emitted prefixes resolve back to their
respective URIs under the nearest-declaration-wins read lookup.  The
resolver is total, so a prefix conflict is never surfaced as an error. -/
theorem write_resolution (s₀ : WScope) (U V p : String) (pref2 : Option String)
    (h1 : effLookup (allBindings s₀) p = none)
    (h2 : pfxFor (allBindings s₀) U = none)
    (h3 : pfxFor (allBindings s₀) V = none)
    (hUV : U ≠ V) :
    ∃ s₁ q s₄,
      resolvePfxForWrite s₀ U (some p) = (p, s₁) ∧
      resolvePfxForWrite (pushScope s₁) U pref2 = (p, pushScope s₁) ∧
      resolvePfxForWrite (pushScope (pushScope s₁)) V (some p) = (q, s₄) ∧
      q ≠ p ∧
      effLookup (allBindings s₄) q = some V ∧
      effLookup (allBindings s₄) p = some U := by
  have hstep1 := write_step1 s₀ U p h1 h2
  have hA2 : allBindings (pushScope (wDeclare s₀ p U)) = (p, U) :: allBindings s₀ := rfl
  have hfor2 : pfxFor (allBindings (pushScope (wDeclare s₀ p U))) U = some p := by
    rw [hA2]
    exact pfxFor_head _ p U
  have hstep2 : resolvePfxForWrite (pushScope (wDeclare s₀ p U)) U pref2
      = (p, pushScope (wDeclare s₀ p U)) := by
    simp only [resolvePfxForWrite, hfor2]
  have hA3 : allBindings (pushScope (pushScope (wDeclare s₀ p U)))
      = (p, U) :: allBindings s₀ := rfl
  have hp_notbound : ∀ b ∈ allBindings s₀, b.1 ≠ p := effLookup_none_elim h1
  have hfor3 : pfxFor (allBindings (pushScope (pushScope (wDeclare s₀ p U)))) V
      = none := by
    rw [hA3]
    exact pfxFor_cons_none _ p U V hUV hp_notbound h3
  have heff3 : effLookup (allBindings (pushScope (pushScope (wDeclare s₀ p U)))) p
      = some U := by
    rw [hA3]
    exact effLookup_head _ p U
  obtain ⟨hqfresh, hcur, houter⟩ :=
    write_step3 (pushScope (pushScope (wDeclare s₀ p U))) V p U hfor3 heff3
  have hpmem : p ∈ (allBindings (pushScope (pushScope (wDeclare s₀ p U)))).map
      Prod.fst := by
    rw [hA3]
    exact List.mem_map.mpr ⟨(p, U), List.mem_cons_self _ _, rfl⟩
  have hqp : (resolvePfxForWrite (pushScope (pushScope (wDeclare s₀ p U))) V
      (some p)).1 ≠ p := by
    intro hh
    rw [hh] at hqfresh
    exact hqfresh hpmem
  have hA4 : allBindings (resolvePfxForWrite (pushScope (pushScope (wDeclare s₀ p U)))
        V (some p)).2
      = ((resolvePfxForWrite (pushScope (pushScope (wDeclare s₀ p U))) V (some p)).1, V)
        :: allBindings (pushScope (pushScope (wDeclare s₀ p U))) := by
    show (resolvePfxForWrite (pushScope (pushScope (wDeclare s₀ p U))) V (some p)).2.cur
        ++ (resolvePfxForWrite (pushScope (pushScope (wDeclare s₀ p U))) V (some p)).2.outer
      = _
    rw [hcur, houter, List.cons_append]
    rfl
  refine ⟨wDeclare s₀ p U,
    (resolvePfxForWrite (pushScope (pushScope (wDeclare s₀ p U))) V (some p)).1,
    (resolvePfxForWrite (pushScope (pushScope (wDeclare s₀ p U))) V (some p)).2,
    hstep1, hstep2, rfl, hqp, ?_, ?_⟩
  · rw [hA4]
    exact effLookup_head _ _ V
  · rw [hA4, effLookup_cons_ne _ p _ V hqp, heff3]

theorem write_resolution_witness :
    ∃ s₁ q s₄,
      resolvePfxForWrite ⟨[], [], 0⟩ "urn:a" (some "ns") = ("ns", s₁) ∧
      resolvePfxForWrite (pushScope s₁) "urn:a" none = ("ns", pushScope s₁) ∧
      resolvePfxForWrite (pushScope (pushScope s₁)) "urn:b" (some "ns") = (q, s₄) ∧
      q ≠ "ns" ∧
      effLookup (allBindings s₄) q = some "urn:b" ∧
      effLookup (allBindings s₄) "ns" = some "urn:a" :=
  write_resolution ⟨[], [], 0⟩ "urn:a" "urn:b" "ns" none (by decide) (by decide)
    (by decide) (by decide)

end Sxd
